import Mathlib

/-!
Verification development for the BookByte summarization pipeline.

The development shallowly embeds the core of the system:

* the token-bounded elastic segmenter `splitByTokensElastic` and the
  parameter calculator `computeChapterSegmentationParams`;
* the sequential, checkpointed chapter pipeline of the extract and
  resume routes, modelled as pure functions producing an event trace;
* the map phase of `buildGlobalGuide` with its per-chunk retry loop and
  artifact reuse, likewise modelled with an event trace;
* `sanitizeChapterOutput` over a small JSON value model.

Text is modelled as `List Char`.  The external tiktoken encoder is
modelled as an abstract `Tokenizer`: a function cutting a text into a
list of nonempty token pieces whose concatenation restores the text,
together with a prefix-progress property satisfied by any deterministic
encoder whose encoding of a longer prefix never collapses below the
token index already covered.  A concrete instance `charTok` (one
character = one token) is used for concrete evaluations.  JavaScript
floating point arithmetic is modelled over the rationals;
`Math.round` becomes `jround`.
-/

/-- JavaScript `Math.round` of the exact rational `a / b` (for `b > 0`),
truncated to a natural number; every rounded quantity in the source is
nonnegative.  `round(a/b) = ⌊a/b + 1/2⌋ = ⌊(2a+b)/(2b)⌋`, and the
lemma `jroundDiv_eq` below rephrases it through the rational floor.
Divisions are spelled out as numerator/denominator pairs because the
library's rational arithmetic is irreducible and would block concrete
evaluation. -/
def jroundDiv (a : ℤ) (b : ℕ) : ℕ := ((2 * a + b) / (2 * (b : ℤ))).toNat

/-- Whitespace removed by JavaScript `String.prototype.trim` (the ASCII
subset relevant to the source). -/
def isJsWS (c : Char) : Bool :=
  c = ' ' || c = '\t' || c = '\n' || c = '\r' || c = '\x0b' || c = '\x0c'

/-- JavaScript `String.prototype.trim` on a character list. -/
def wtrim (s : List Char) : List Char :=
  ((s.dropWhile isJsWS).reverse.dropWhile isJsWS).reverse

/-- `isSentenceEnd` from the source: the regex `[.!?]`. -/
def isSentenceEnd (c : Char) : Bool := c = '.' || c = '!' || c = '?'

/-- Abstract model of the external tiktoken encoder used by
`splitByTokensElastic`.  `encode` cuts a text into token pieces;
decoding is concatenation.  `encode_progress` states that encoding a
prefix that strictly covers the first `k` tokens of the full text
yields more than `k` tokens; it holds for the character tokenizer and
reflects the prefix consistency of a deterministic encoder, and it is
what makes the source's while loop terminate. -/
structure Tokenizer where
  encode : List Char → List (List Char)
  join_encode : ∀ s, (encode s).flatten = s
  encode_ne : ∀ s p, p ∈ encode s → p ≠ []
  encode_progress : ∀ s k c, k < (encode s).length →
    (((encode s).take k).flatten).length < c → k < (encode (s.take c)).length

/-- `enc.encode(text).length` of the source. -/
def Tokenizer.count (tk : Tokenizer) (s : List Char) : ℕ := (tk.encode s).length

/-- `enc.decode(tokens.slice(0, k)).length` of the source: the character
offset of token index `k`. -/
def Tokenizer.offsetAt (tk : Tokenizer) (s : List Char) (k : ℕ) : ℕ :=
  (((tk.encode s).take k).flatten).length

/-- One entry of the `boundaries` array returned by
`splitByTokensElastic`; the source field `end` is called `stop` here
because `end` is a Lean keyword. -/
structure Boundary where
  start : ℕ
  stop : ℕ
  tokens : ℕ
deriving DecidableEq, Repr

/-- `slice.lastIndexOf('\n\n')` of the source, as an optional index. -/
def lastParagraphCut (s : List Char) : Option ℕ :=
  ((List.range s.length).filter
    (fun i => decide (s.get? i = some '\n') && decide (s.get? (i+1) = some '\n'))).getLast?

/-- The source's backwards scan for the last sentence-terminal
character, as an optional index. -/
def lastSentenceCut (s : List Char) : Option ℕ :=
  ((List.range s.length).filter
    (fun i => match s.get? i with | some c => isSentenceEnd c | none => false)).getLast?

/-- The boundary search of `splitByTokensElastic`: prefer the last
paragraph break in the window, else the position after the last
sentence-terminal character, else the hard ceiling `maxChar`; a cut not
advancing past `startChar` is replaced by `maxChar`. -/
def computeBestCut (text : List Char) (startChar windowStartChar maxChar : ℕ) : ℕ :=
  let slice := (text.take maxChar).drop windowStartChar
  let b :=
    match lastParagraphCut slice with
    | some idx => windowStartChar + idx
    | none =>
      match lastSentenceCut slice with
      | some i => windowStartChar + i + 1
      | none => maxChar
  if b ≤ startChar then maxChar else b

/-- Outcome of one iteration of the `while` loop of
`splitByTokensElastic`. -/
inductive StepRes where
  | stop : StepRes
  | skip (next : ℕ) : StepRes
  | emit (chunk : List Char) (b : Boundary) (next : ℕ) : StepRes
deriving Repr

/-- One iteration of the `while` loop of `splitByTokensElastic`,
translated clause by clause from the source.  The source also computes
a `maxTokens = max(100, round(target*(1+tolerance)))` which is never
read; it is omitted.  `.stop` covers both the loop guard
`startTok < tokens.length` failing and the (unreachable) `break` in the
empty-piece branch.  Rational arithmetic of the source is spelled with
explicit numerators and denominators:
`round(target * tolerance)` is `jroundDiv (target * tolerance.num) tolerance.den`,
`round(target * (1 - tolerance))` is
`jroundDiv (target * (tolerance.den - tolerance.num)) tolerance.den`,
`round(target * 0.5)` is `jroundDiv target 2`,
`round(piece.length * 0.2)` is `jroundDiv piece.length 5`, and
`round(len * (overlapTokens / max(1, pieceTokens)))` is
`jroundDiv (len * overlapTokens) (max 1 pieceTokens)`; each identity is
exact for rational arithmetic. -/
def splitStep (tk : Tokenizer) (text : List Char) (targetTokens overlapTokens : ℕ)
    (tolerance : ℚ) (startTok : ℕ) : StepRes :=
  let n := tk.count text
  if startTok < n then
    let endTarget := min n (startTok + targetTokens)
    let tolTok := jroundDiv ((targetTokens : ℤ) * tolerance.num) tolerance.den
    let endTok := min n (endTarget + tolTok)
    let startChar := tk.offsetAt text startTok
    let maxChar := tk.offsetAt text endTok
    let windowStartChar := tk.offsetAt text (endTarget - tolTok)
    let bestCut := computeBestCut text startChar windowStartChar maxChar
    let piece := wtrim ((text.take bestCut).drop startChar)
    let pieceTokens := tk.count piece
    if pieceTokens = 0 ∨ piece.length = 0 then
      if n ≤ startTok then .stop
      else .skip (min n (startTok + max 1 (jroundDiv (targetTokens : ℤ) 2)))
    else if pieceTokens <
        max 50 (jroundDiv ((targetTokens : ℤ) * ((tolerance.den : ℤ) - tolerance.num)) tolerance.den)
        ∧ bestCut < text.length then
      let extraEnd := min text.length (bestCut + jroundDiv (piece.length : ℤ) 5)
      let extended := (text.take extraEnd).drop startChar
      let overlapChars := jroundDiv ((extended.length : ℤ) * (overlapTokens : ℤ)) (max 1 pieceTokens)
      let nextStartChar := max (startChar + extended.length - overlapChars) (startChar + 1)
      .emit (wtrim extended) ⟨startChar, extraEnd, tk.count extended⟩
        (tk.count (text.take nextStartChar))
    else
      let overlapChars := jroundDiv ((piece.length : ℤ) * (overlapTokens : ℤ)) (max 1 pieceTokens)
      let nextStartChar := max (startChar + piece.length - overlapChars) (startChar + 1)
      .emit piece ⟨startChar, bestCut, pieceTokens⟩ (tk.count (text.take nextStartChar))
  else .stop

/-- The `while` loop of `splitByTokensElastic` with explicit fuel.
`splitLoop_stable` below shows the fuel used by `splitByTokensElastic`
is always sufficient, so this is an exact model of the source loop. -/
def splitLoop (tk : Tokenizer) (text : List Char) (targetTokens overlapTokens : ℕ)
    (tolerance : ℚ) : ℕ → ℕ → List (List Char) × List Boundary
  | 0, _ => ([], [])
  | fuel + 1, startTok =>
    match splitStep tk text targetTokens overlapTokens tolerance startTok with
    | .stop => ([], [])
    | .skip next => splitLoop tk text targetTokens overlapTokens tolerance fuel next
    | .emit c b next =>
      let r := splitLoop tk text targetTokens overlapTokens tolerance fuel next
      (c :: r.1, b :: r.2)

/-- `splitByTokensElastic` from the source, returning the chunk texts
and the boundaries array. -/
def splitByTokensElastic (tk : Tokenizer) (text : List Char)
    (targetTokens : ℕ := 6000) (overlapTokens : ℕ := 600) (tolerance : ℚ := 3/20) :
    List (List Char) × List Boundary :=
  splitLoop tk text targetTokens overlapTokens tolerance (tk.count text + 1) 0

/-- The one-character-per-token instance of `Tokenizer`, used for
concrete evaluations. -/
def charTok : Tokenizer where
  encode s := s.map (fun c => [c])
  join_encode s := by
    induction s with
    | nil => rfl
    | cons a t ih => simpa using ih
  encode_ne s p hp := by
    simp only [List.mem_map] at hp
    obtain ⟨c, -, rfl⟩ := hp
    simp
  encode_progress s k c hk hc := by
    simp only [List.length_map] at hk
    have hjoin : ∀ (t : List Char), ((t.map (fun c => [c])).flatten) = t := by
      intro t
      induction t with
      | nil => rfl
      | cons a u ih => simpa using ih
    rw [← List.map_take, hjoin, List.length_take] at hc
    rw [List.length_map, List.length_take]
    have hmin : min k s.length = k := min_eq_left hk.le
    rw [hmin] at hc
    exact lt_min hc hk

/-- Return value of `computeChapterSegmentationParams`. -/
structure SegParams where
  chapterInputTokens : ℕ
  chapterOverlapTokens : ℕ
deriving DecidableEq, Repr

/-- `computeChapterSegmentationParams` from the source: linear
interpolation of the chapter input size over the reference band
80000..1200000 between 11000 and 40000 tokens, with a 10% overlap
clamped into 400..2000.  The source clamp
`clamp((total - 80000) / max(1, 1120000), 0, 1)` is represented by its
numerator `fracNum = clamp(total - 80000, 0, 1120000)` over the fixed
denominator 1120000, so
`round(11000 + frac * 29000) = round((11000*1120000 + fracNum*29000) / 1120000)`
and `round(clamp(chIn * 0.1, 400, 2000)) = round(clamp(chIn, 4000, 20000) / 10)`;
both identities are exact. -/
def computeChapterSegmentationParams (totalTokens : ℕ) : SegParams :=
  let fracNum : ℤ := max 0 (min 1120000 ((totalTokens : ℤ) - 80000))
  let chapterInputTokens := jroundDiv (11000 * 1120000 + fracNum * 29000) 1120000
  let chapterOverlapTokens := jroundDiv (max 4000 (min 20000 (chapterInputTokens : ℤ))) 10
  ⟨chapterInputTokens, chapterOverlapTokens⟩

/-! ### Context-carrying chapter pipeline

The chapter loops of the `/extract-auto` and `/resume-extract-auto`
routes call `summarizeChapterWithContext` strictly in order, feed it
the global guide and the previous chapter's full formatted output, and
persist `chapter_XX_formatted.json` before moving on.  The oracle call
(one `summarizeChapterWithContext` invocation, internally retried) is
modelled as an abstract function `oracle i guide prev`; the run is
modelled as a pure function returning the event trace (oracle
invocations and artifact persistences, in execution order) together
with the list of produced chapter outputs. -/

/-- A chapter-pipeline event: an oracle invocation with its full input
payload, or the persistence of a completed chapter artifact. -/
inductive ChapEvent (G α : Type) where
  | invoke (i : ℕ) (guide : G) (prev : Option α) : ChapEvent G α
  | persist (i : ℕ) (out : α) : ChapEvent G α
deriving DecidableEq

/-- The sequential chapter loop shared by `/extract-auto` and
`/resume-extract-auto`: for each index in order, invoke the oracle with
the guide and the previous formatted chapter, persist the result, and
carry it to the next stage. -/
def runChaptersAux {G α : Type} (oracle : ℕ → G → Option α → α) (guide : G) :
    List ℕ → Option α → List (ChapEvent G α) × List α
  | [], _ => ([], [])
  | i :: rest, prev =>
    let out := oracle i guide prev
    let r := runChaptersAux oracle guide rest (some out)
    (.invoke i guide prev :: .persist i out :: r.1, out :: r.2)

/-- Output of chapter `i` in an uninterrupted sequential run: each
stage's input carries the previous stage's output. -/
def chapterOut {G α : Type} (oracle : ℕ → G → Option α → α) (guide : G) : ℕ → α
  | 0 => oracle 0 guide none
  | i + 1 => oracle (i + 1) guide (some (chapterOut oracle guide i))

/-- The previous-chapter payload handed to stage `i`. -/
def prevChapter {G α : Type} (oracle : ℕ → G → Option α → α) (guide : G) : ℕ → Option α
  | 0 => none
  | i + 1 => some (chapterOut oracle guide i)

/-- The chapter loop of the `/extract-auto` route: chapters `0..count-1`
in order, starting with no previous chapter. -/
def extractAutoChapters {G α : Type} (oracle : ℕ → G → Option α → α) (guide : G)
    (count : ℕ) : List (ChapEvent G α) × List α :=
  runChaptersAux oracle guide (List.range count) none

/-- The contiguous-watermark scan loop of `/resume-extract-auto`,
counting upward while the chapter artifact exists and breaking at the
first missing one; `i` chapters are already known completed and
`remaining` indices are left to probe. -/
def lastContiguousFrom {α : Type} (store : ℕ → Option α) : ℕ → ℕ → ℕ
  | i, 0 => i
  | i, remaining + 1 =>
    if (store i).isSome then lastContiguousFrom store (i + 1) remaining else i

/-- The contiguous watermark of `/resume-extract-auto`: the number of
leading chapter indices whose `chapter_XX_formatted.json` artifact
exists, stopping at the first missing one. -/
def lastContiguous {α : Type} (store : ℕ → Option α) (count : ℕ) : ℕ :=
  lastContiguousFrom store 0 count

/-- The `/resume-extract-auto` route: scan the checkpoint store for the
highest contiguous completed prefix, reload the last completed chapter
as the previous-output payload, process only the remaining indices, and
assemble the final chapter list from the stored artifacts followed by
the fresh outputs.  When every chapter artifact exists the route
returns early with no processing. -/
def resumeExtract {G α : Type} [Inhabited α] (oracle : ℕ → G → Option α → α) (guide : G)
    (store : ℕ → Option α) (count : ℕ) : List (ChapEvent G α) × List α :=
  let lastIdx := lastContiguous store count
  if count ≤ lastIdx then ([], [])
  else
    let prev : Option α := match lastIdx with | 0 => none | j + 1 => store j
    let r := runChaptersAux oracle guide (List.range' lastIdx (count - lastIdx)) prev
    (r.1, (List.range count).map fun i =>
      if i < lastIdx then (store i).getD default else r.2.getD (i - lastIdx) default)

/-! ### Guide builder, map phase

`buildGlobalGuide` iterates over the coarse chunks; for each chunk it
first looks for an existing `guide_output_XX.json` artifact (reused and
the oracle skipped when it exists and parses), otherwise it issues the
oracle call with up to `maxAttempts = 3` attempts, treating an empty or
unparseable response as a failed attempt, and rethrows (failing the
whole run) once the attempt ceiling is reached.  Successful partial
guides are collected one per chunk, in chunk order.  The oracle
response for chunk `i`, attempt `a` is modelled as `resp i a : Option G`
(`none` = empty or invalid); the artifact store as `store i : Option G`
(`some` = exists and parses).  Backoff delays are not modelled. -/

/-- A guide-map event: reuse of an existing per-chunk artifact, or one
oracle call attempt for a chunk. -/
inductive GuideEvent where
  | reuse (chunk : ℕ) : GuideEvent
  | attemptCall (chunk : ℕ) (attempt : ℕ) : GuideEvent
deriving DecidableEq, Repr

/-- The per-chunk retry loop of `buildGlobalGuide`
(`while attempt < maxAttempts && !parsed`): returns the list of attempt
numbers issued and the first successful response, if any. -/
def retryAttempts {G : Type} (resp : ℕ → Option G) : ℕ → ℕ → List ℕ × Option G
  | _, 0 => ([], none)
  | base, r + 1 =>
    let a := base + 1
    match resp a with
    | some g => ([a], some g)
    | none =>
      let t := retryAttempts resp a r
      (a :: t.1, t.2)

/-- The map phase of `buildGlobalGuide` over a list of chunk indices:
reuse stored artifacts, otherwise retry the oracle up to 3 times; a
chunk with no valid response after the last attempt fails the whole
run (`none`), leaving later chunks unprocessed. -/
def buildGuideMapAux {G : Type} (store : ℕ → Option G) (resp : ℕ → ℕ → Option G) :
    List ℕ → List GuideEvent × Option (List G)
  | [] => ([], some [])
  | i :: rest =>
    match store i with
    | some g =>
      let r := buildGuideMapAux store resp rest
      (.reuse i :: r.1, r.2.map (g :: ·))
    | none =>
      let t := retryAttempts (resp i) 0 3
      match t.2 with
      | none => (t.1.map (.attemptCall i ·), none)
      | some g =>
        let r := buildGuideMapAux store resp rest
        (t.1.map (.attemptCall i ·) ++ r.1, r.2.map (g :: ·))

/-- The map phase of `buildGlobalGuide` over chunks `0..numChunks-1`. -/
def buildGlobalGuideMap {G : Type} (store : ℕ → Option G) (resp : ℕ → ℕ → Option G)
    (numChunks : ℕ) : List GuideEvent × Option (List G) :=
  buildGuideMapAux store resp (List.range numChunks)

/-- Whether an event is an oracle call attempt for chunk `i`. -/
def GuideEvent.isAttemptOf (i : ℕ) : GuideEvent → Bool
  | .attemptCall j _ => j == i
  | _ => false

/-! ### Chapter output sanitization

`sanitizeChapterOutput` post-processes the JSON object parsed from the
oracle response in `summarizeChapterWithContext`: it deletes the
top-level keys of each content item whose value is `null` and coerces a
non-string title to the empty string.  JSON values are modelled by the
small inductive `J`; a content item is its list of key/value fields. -/

/-- A JSON value. -/
inductive J where
  | null : J
  | str (s : String) : J
  | num (n : ℤ) : J
  | boolV (b : Bool) : J
  | arr (elems : List J) : J
  | obj (fields : List (String × J)) : J

/-- Whether a JSON value is `null`. -/
def J.isNull : J → Bool
  | .null => true
  | _ => false

/-- A chapter as parsed from the oracle response, before sanitization. -/
structure RawChapter where
  title : J
  content : List (List (String × J))

/-- A chapter after `sanitizeChapterOutput`. -/
structure CleanChapter where
  title : String
  content : List (List (String × J))

/-- `sanitizeChapterOutput` from the source: delete `null`-valued
top-level keys of every content item; keep a string title, else `''`. -/
def sanitizeChapterOutput (ch : RawChapter) : CleanChapter where
  title := match ch.title with | .str s => s | _ => ""
  content := ch.content.map (fun item => item.filter (fun kv => !kv.2.isNull))

/-! ### Concrete instances used in concrete checks -/

/-- A content item as an oracle may return it: a QUOTE key-point whose
attribution field `reference` is present but empty. -/
def quoteItem : List (String × J) :=
  [("type", J.str "KEY_POINT"), ("keyPointType", J.str "QUOTE"),
   ("text", J.str "x"), ("reference", J.str "")]

/-- A concrete chapter oracle over natural-number guides and chapters. -/
def oracleW : ℕ → ℕ → Option ℕ → ℕ := fun i g p => 100 * i + g + p.getD 0

/-- A concrete chapter artifact store: chapters 0..2 completed, the
rest missing. -/
def storeW : ℕ → Option ℕ := fun i => if i < 3 then some (40 + i) else none

/-- A concrete guide oracle response table: chunk 1 returns empty
content on attempts 1 and 2 and succeeds on attempt 3; every other
chunk succeeds on its first attempt. -/
def respW : ℕ → ℕ → Option ℕ := fun i a =>
  if i = 1 then (if 3 ≤ a then some 11 else none) else some (20 + i)

/-- A concrete guide artifact store: an artifact exists for chunk 0
only. -/
def storeG : ℕ → Option ℕ := fun i => if i = 0 then some 7 else none

/-! ## Theorems -/

/-- `jroundDiv a b` is `⌊a/b + 1/2⌋`, i.e. JavaScript `Math.round` of
the exact rational `a / b`. -/
theorem jroundDiv_eq (a : ℤ) (b : ℕ) (hb : b ≠ 0) :
    jroundDiv a b = (⌊(a : ℚ) / (b : ℚ) + 1/2⌋).toNat := by
  have hb' : ((b : ℚ)) ≠ 0 := Nat.cast_ne_zero.mpr hb
  have h2b : ((2 * b : ℕ) : ℤ) = 2 * (b : ℤ) := by push_cast; ring
  unfold jroundDiv
  rw [← h2b, ← Rat.floor_intCast_div_natCast (2 * a + b) (2 * b)]
  congr 2
  push_cast
  field_simp
  ring

theorem jroundDiv_le (a : ℤ) (b : ℕ) (hb : b ≠ 0) (m : ℕ)
    (h : (a : ℚ) / (b : ℚ) + 1/2 < m + 1) : jroundDiv a b ≤ m := by
  rw [jroundDiv_eq a b hb]
  have : (⌊(a : ℚ) / (b : ℚ) + 1/2⌋) < (m : ℤ) + 1 := by
    apply Int.floor_lt.mpr
    push_cast
    exact h
  omega

theorem le_jroundDiv (a : ℤ) (b : ℕ) (hb : b ≠ 0) (m : ℕ)
    (h : (m : ℚ) ≤ (a : ℚ) / (b : ℚ) + 1/2) : m ≤ jroundDiv a b := by
  rw [jroundDiv_eq a b hb]
  have h1 : ((m : ℤ) : ℚ) ≤ (a : ℚ) / (b : ℚ) + 1/2 := by push_cast; exact_mod_cast h
  have := Int.le_floor.mpr h1
  omega

/-- C7: `computeChapterSegmentationParams` is a pure function that
linearly interpolates the chapter input size between 11000 and 40000
tokens as the total token count moves across the reference band
80000..1200000, clamping to the minimum below the band and to the
maximum above it, and derives the overlap as 10% of the resulting
chunk size clamped into 400..2000. -/
theorem computeChapterSegmentationParams_spec (t : ℕ) :
    (t ≤ 80000 → (computeChapterSegmentationParams t).chapterInputTokens = 11000) ∧
    (1200000 ≤ t → (computeChapterSegmentationParams t).chapterInputTokens = 40000) ∧
    (80000 ≤ t → t ≤ 1200000 →
      (computeChapterSegmentationParams t).chapterInputTokens =
        (⌊(11000 : ℚ) + (((t : ℚ) - 80000) / 1120000) * 29000 + 1/2⌋).toNat) ∧
    (computeChapterSegmentationParams t).chapterOverlapTokens =
      (⌊max (400 : ℚ) (min 2000
        (((computeChapterSegmentationParams t).chapterInputTokens : ℚ) / 10)) + 1/2⌋).toNat ∧
    400 ≤ (computeChapterSegmentationParams t).chapterOverlapTokens ∧
    (computeChapterSegmentationParams t).chapterOverlapTokens ≤ 2000 := by
  have hb : (1120000 : ℕ) ≠ 0 := by norm_num
  refine ⟨?_, ?_, ?_, ?_, ?_, ?_⟩
  · intro ht
    have h : (max 0 (min 1120000 ((t : ℤ) - 80000))) = 0 := by omega
    simp only [computeChapterSegmentationParams, h]
    decide
  · intro ht
    have h : (max 0 (min 1120000 ((t : ℤ) - 80000))) = 1120000 := by omega
    simp only [computeChapterSegmentationParams, h]
    decide
  · intro h1 h2
    have h : (max 0 (min 1120000 ((t : ℤ) - 80000))) = (t : ℤ) - 80000 := by omega
    simp only [computeChapterSegmentationParams, h]
    rw [jroundDiv_eq _ _ hb]
    congr 2
    push_cast
    field_simp
    ring
  · simp only [computeChapterSegmentationParams]
    rw [jroundDiv_eq _ _ (by norm_num : (10:ℕ) ≠ 0)]
    congr 2
    push_cast
    rw [← max_div_div_right (by norm_num : (0:ℚ) ≤ 10), ← min_div_div_right (by norm_num : (0:ℚ) ≤ 10)]
    norm_num
  · simp only [computeChapterSegmentationParams]
    apply le_jroundDiv _ _ (by norm_num : (10:ℕ) ≠ 0)
    have h1 : (4000 : ℤ) ≤ max 4000 (min 20000
        ((jroundDiv (11000 * 1120000 + max 0 (min 1120000 ((t:ℤ) - 80000)) * 29000) 1120000 : ℕ) : ℤ)) :=
      le_max_left _ _
    have h2 : ((4000 : ℤ) : ℚ) ≤ _ := Int.cast_le.mpr h1
    push_cast at h2 ⊢
    linarith
  · simp only [computeChapterSegmentationParams]
    apply jroundDiv_le _ _ (by norm_num : (10:ℕ) ≠ 0)
    have h1 : max 4000 (min 20000
        ((jroundDiv (11000 * 1120000 + max 0 (min 1120000 ((t:ℤ) - 80000)) * 29000) 1120000 : ℕ) : ℤ))
        ≤ 20000 := by
      have : (0:ℤ) ≤ ((jroundDiv (11000 * 1120000 + max 0 (min 1120000 ((t:ℤ) - 80000)) * 29000) 1120000 : ℕ) : ℤ) :=
        Int.natCast_nonneg _
      omega
    have h2 : (_ : ℚ) ≤ ((20000 : ℤ) : ℚ) := Int.cast_le.mpr h1
    push_cast at h2 ⊢
    linarith

/-- Witness for C7 at the spec's example of a 100000-token document:
the interpolated chunk size is 11518 (slightly above 11000) and the
overlap 1152 lies within 400..2000. -/
theorem computeChapterSegmentationParams_spec_witness :
    (computeChapterSegmentationParams 100000).chapterInputTokens =
      (⌊(11000 : ℚ) + (((100000 : ℚ) - 80000) / 1120000) * 29000 + 1/2⌋).toNat ∧
    (computeChapterSegmentationParams 100000).chapterInputTokens = 11518 ∧
    (computeChapterSegmentationParams 100000).chapterOverlapTokens = 1152 ∧
    400 ≤ (computeChapterSegmentationParams 100000).chapterOverlapTokens ∧
    (computeChapterSegmentationParams 100000).chapterOverlapTokens ≤ 2000 :=
  ⟨(computeChapterSegmentationParams_spec 100000).2.2.1 (by norm_num) (by norm_num),
   by decide, by decide,
   (computeChapterSegmentationParams_spec 100000).2.2.2.2.1,
   (computeChapterSegmentationParams_spec 100000).2.2.2.2.2⟩

/-- C9 (amended): after `sanitizeChapterOutput`, no content item of the
returned chapter has a `null`-valued top-level field; the type tag and
the non-empty QUOTE `reference` demanded by the spec are prompt-level
instructions only and are not enforced (see the counterexample). -/
theorem sanitizeChapterOutput_no_null (ch : RawChapter) :
    ∀ item ∈ (sanitizeChapterOutput ch).content, ∀ kv ∈ item, kv.2.isNull = false := by
  intro item hitem kv hkv
  simp only [sanitizeChapterOutput, List.mem_map] at hitem
  obtain ⟨item₀, -, rfl⟩ := hitem
  have h := List.of_mem_filter hkv
  simpa using h

/-- Witness for C9: a sanitized item's field survives with a non-`null`
value. -/
theorem sanitizeChapterOutput_no_null_witness :
    (("type", J.str "PARAGRAPH") : String × J).2.isNull = false := by
  have hmem : [(("type", J.str "PARAGRAPH") : String × J)] ∈
      (sanitizeChapterOutput ⟨J.null, [[("type", J.str "PARAGRAPH"), ("bad", J.null)]]⟩).content := by
    rw [show (sanitizeChapterOutput
        ⟨J.null, [[("type", J.str "PARAGRAPH"), ("bad", J.null)]]⟩).content =
        [[(("type", J.str "PARAGRAPH") : String × J)]] from rfl]
    exact List.mem_singleton_self _
  exact sanitizeChapterOutput_no_null _ _ hmem _ (List.mem_singleton_self _)

/-- Counterexample for C9: a KEY_POINT of type QUOTE whose `reference`
is the empty string passes `sanitizeChapterOutput` unchanged, so the
claim that every QUOTE carries a non-empty attribution after
sanitization is false — only `null`-valued fields are removed. -/
theorem sanitizeChapterOutput_counterexample :
    (sanitizeChapterOutput ⟨J.str "t", [quoteItem]⟩).content = [quoteItem] ∧
    ("keyPointType", J.str "QUOTE") ∈ quoteItem ∧
    ("reference", J.str "") ∈ quoteItem := by
  refine ⟨rfl, ?_, ?_⟩
  · exact List.Mem.tail _ (List.Mem.head _)
  · exact List.Mem.tail _ (List.Mem.tail _ (List.Mem.tail _ (List.Mem.head _)))

/-- The payload the sequential loop hands to stage `s` is exactly the
output of stage `s`. -/
theorem oracle_prevChapter {G α : Type} (oracle : ℕ → G → Option α → α) (guide : G) (s : ℕ) :
    oracle s guide (prevChapter oracle guide s) = chapterOut oracle guide s := by
  cases s <;> rfl

/-- Positional description of the sequential chapter loop's trace over
indices `s..s+m-1`. -/
theorem runChaptersAux_get {G α : Type} (oracle : ℕ → G → Option α → α) (guide : G) :
    ∀ (m s j : ℕ), j < m →
      ((runChaptersAux oracle guide (List.range' s m) (prevChapter oracle guide s)).1.get? (2*j) =
        some (.invoke (s+j) guide (prevChapter oracle guide (s+j))) ∧
       (runChaptersAux oracle guide (List.range' s m) (prevChapter oracle guide s)).1.get? (2*j+1) =
        some (.persist (s+j) (chapterOut oracle guide (s+j)))) := by
  intro m
  induction m with
  | zero => intro s j hj; omega
  | succ m ih =>
    intro s j hj
    rw [List.range'_succ]
    simp only [runChaptersAux, oracle_prevChapter]
    have hrec : (some (chapterOut oracle guide s)) = prevChapter oracle guide (s+1) := rfl
    cases j with
    | zero => simp
    | succ j' =>
      have h2 : 2 * (j' + 1) = (2 * j') + 1 + 1 := by ring
      rw [h2]
      simp only [List.get?_cons_succ]
      rw [hrec]
      have h' := ih (s+1) j' (by omega)
      have hs : s + 1 + j' = s + (j' + 1) := by omega
      rw [hs] at h'
      exact h'

/-- C4: the chapter pipeline is strictly sequential: in the execution
trace, the oracle invocation of stage `i` sits at position `2*i`,
strictly after the persistence of stage `i-1`'s completed artifact at
position `2*i-1`, and its payload is the finalized global guide
together with the full formatted output of stage `i-1` (`none` for
stage 0).  Stages are neither reordered nor overlapped: the trace is a
single sequential interleaving `invoke 0, persist 0, invoke 1, ...`. -/
theorem chapterPipeline_sequential {G α : Type} (oracle : ℕ → G → Option α → α) (guide : G)
    (count i : ℕ) (hi : i < count) :
    (extractAutoChapters oracle guide count).1.get? (2*i) =
      some (.invoke i guide (prevChapter oracle guide i)) ∧
    (extractAutoChapters oracle guide count).1.get? (2*i+1) =
      some (.persist i (chapterOut oracle guide i)) := by
  have h := runChaptersAux_get oracle guide count 0 i hi
  simp only [Nat.zero_add] at h
  rw [extractAutoChapters, List.range_eq_range']
  exact h

/-- Witness for C4 with a concrete oracle and two chapters: stage 1's
invocation carries the guide and stage 0's output and follows stage 0's
persistence. -/
theorem chapterPipeline_sequential_witness :
    (extractAutoChapters oracleW 7 2).1.get? 2 =
      some (.invoke 1 7 (prevChapter oracleW 7 1)) ∧
    (extractAutoChapters oracleW 7 2).1.get? 3 =
      some (.persist 1 (chapterOut oracleW 7 1)) := by
  have h := chapterPipeline_sequential oracleW 7 2 1 (by decide)
  simpa using h

/-- Characterization of the watermark scan loop: every index below the
returned watermark has an artifact, and the watermark itself (when the
scan stopped before exhausting the range) is the first missing index. -/
theorem lastContiguousFrom_spec {α : Type} (store : ℕ → Option α) :
    ∀ remaining i,
      i ≤ lastContiguousFrom store i remaining ∧
      lastContiguousFrom store i remaining ≤ i + remaining ∧
      (∀ j, i ≤ j → j < lastContiguousFrom store i remaining → (store j).isSome) ∧
      (lastContiguousFrom store i remaining < i + remaining →
        store (lastContiguousFrom store i remaining) = none) := by
  intro remaining
  induction remaining with
  | zero =>
    intro i
    simp only [lastContiguousFrom]
    refine ⟨le_refl _, by omega, ?_, ?_⟩
    · intro j h1 h2; omega
    · intro h; omega
  | succ r ih =>
    intro i
    simp only [lastContiguousFrom]
    by_cases hs : (store i).isSome
    · rw [if_pos hs]
      obtain ⟨h1, h2, h3, h4⟩ := ih (i + 1)
      refine ⟨by omega, by omega, ?_, ?_⟩
      · intro j hj hj'
        rcases Nat.eq_or_lt_of_le hj with h | h
        · exact h ▸ hs
        · exact h3 j h hj'
      · intro h
        exact h4 (by omega)
    · rw [if_neg hs]
      refine ⟨le_refl _, by omega, ?_, ?_⟩
      · intro j h1 h2
        omega
      · intro _
        exact Option.not_isSome_iff_eq_none.mp hs

/-- An oracle invocation recorded by the sequential loop belongs to the
processed index list. -/
theorem runChaptersAux_invoke_mem {G α : Type} (oracle : ℕ → G → Option α → α) (guide : G) :
    ∀ (l : List ℕ) (prev : Option α) (i : ℕ) (g : G) (p : Option α),
      ChapEvent.invoke i g p ∈ (runChaptersAux oracle guide l prev).1 → i ∈ l := by
  intro l
  induction l with
  | nil => intro prev i g p h; simp [runChaptersAux] at h
  | cons j rest ih =>
    intro prev i g p h
    simp only [runChaptersAux, List.mem_cons] at h
    rcases h with h | h | h
    · cases h; exact List.mem_cons_self _ _
    · exact ChapEvent.noConfusion h
    · exact List.mem_cons_of_mem _ (ih _ _ _ _ h)

/-- C5: re-invoking a run through `/resume-extract-auto` scans the
contiguous completed prefix, issues no oracle call for any index in it,
resumes at the first index lacking a persisted artifact, reuses the
stored artifacts verbatim in the final assembly, and — when artifacts
exist for every index — reprocesses nothing at all. -/
theorem resumeExtract_idempotent {G α : Type} [Inhabited α] (oracle : ℕ → G → Option α → α)
    (guide : G) (store : ℕ → Option α) (count : ℕ) :
    (∀ i, i < lastContiguous store count → (store i).isSome) ∧
    (lastContiguous store count < count → store (lastContiguous store count) = none) ∧
    (∀ i g p, ChapEvent.invoke i g p ∈ (resumeExtract oracle guide store count).1 →
      lastContiguous store count ≤ i) ∧
    (lastContiguous store count < count →
      (resumeExtract oracle guide store count).1.head? =
        some (.invoke (lastContiguous store count) guide
          (match lastContiguous store count with | 0 => none | j + 1 => store j))) ∧
    (∀ i, i < lastContiguous store count → lastContiguous store count < count →
      (resumeExtract oracle guide store count).2.get? i = some ((store i).getD default)) ∧
    ((∀ i, i < count → (store i).isSome) → (resumeExtract oracle guide store count).1 = []) := by
  have hspec := lastContiguousFrom_spec store count 0
  rw [show lastContiguousFrom store 0 count = lastContiguous store count from rfl] at hspec
  obtain ⟨h1, h2, h3, h4⟩ := hspec
  simp only [Nat.zero_add] at h2 h4
  refine ⟨?_, ?_, ?_, ?_, ?_, ?_⟩
  · intro i hi
    exact h3 i (by omega) hi
  · exact h4
  · intro i g p h
    by_cases hc : count ≤ lastContiguous store count
    · rw [resumeExtract, if_pos hc] at h
      simp at h
    · rw [resumeExtract, if_neg hc] at h
      have hmem := runChaptersAux_invoke_mem oracle guide _ _ _ _ _ h
      exact (List.mem_range'_1.mp hmem).1
  · intro hlt
    rw [resumeExtract, if_neg (show ¬ count ≤ lastContiguous store count by omega)]
    obtain ⟨k, hk⟩ : ∃ k, count - lastContiguous store count = k + 1 :=
      ⟨count - lastContiguous store count - 1, by omega⟩
    rw [hk, List.range'_succ]
    simp only [runChaptersAux]
    rfl
  · intro i hi hlt
    rw [resumeExtract, if_neg (show ¬ count ≤ lastContiguous store count by omega)]
    have hgl : (List.range count).get? i = some i := List.get?_range (by omega)
    simp only [List.get?_map, hgl, Option.map_some']
    rw [if_pos hi]
  · intro hall
    have hc : count ≤ lastContiguous store count := by
      by_contra hc
      push_neg at hc
      have hnone := h4 hc
      have hsome := hall _ hc
      rw [hnone] at hsome
      simp at hsome
    rw [resumeExtract, if_pos hc]

/-- Witness for C5 at a concrete store with chapters 0..2 completed out
of 5: the watermark is 3, index 3 is the first missing artifact, the
first oracle call is for index 3 with the stored chapter 2 as previous
output, and the assembled list reuses the stored artifact at index 1. -/
theorem resumeExtract_idempotent_witness :
    (storeW 1).isSome = true ∧
    storeW (lastContiguous storeW 5) = none ∧
    (resumeExtract oracleW 7 storeW 5).1.head? =
      some (.invoke (lastContiguous storeW 5) 7
        (match lastContiguous storeW 5 with | 0 => none | j + 1 => storeW j)) ∧
    (resumeExtract oracleW 7 storeW 5).2.get? 1 = some ((storeW 1).getD default) := by
  refine ⟨?_, ?_, ?_, ?_⟩
  · exact (resumeExtract_idempotent oracleW 7 storeW 5).1 1 (by decide)
  · exact (resumeExtract_idempotent oracleW 7 storeW 5).2.1 (by decide)
  · exact (resumeExtract_idempotent oracleW 7 storeW 5).2.2.2.1 (by decide)
  · exact (resumeExtract_idempotent oracleW 7 storeW 5).2.2.2.2.1 1 (by decide) (by decide)

/-- The retry loop issues at most as many attempts as its ceiling. -/
theorem retryAttempts_length {G : Type} (resp : ℕ → Option G) :
    ∀ r base, (retryAttempts resp base r).1.length ≤ r := by
  intro r
  induction r with
  | zero => intro base; simp [retryAttempts]
  | succ r ih =>
    intro base
    simp only [retryAttempts]
    cases hr : resp (base + 1) with
    | some g => simp
    | none =>
      simp only [List.length_cons]
      have := ih (base + 1)
      omega

/-- Filtering a chunk's own attempt events keeps all of them. -/
theorem filter_map_attempt_self (i : ℕ) (t1 : List ℕ) :
    (t1.map (fun a => GuideEvent.attemptCall i a)).filter (GuideEvent.isAttemptOf i) =
      t1.map (GuideEvent.attemptCall i) := by
  induction t1 with
  | nil => rfl
  | cons a t ih => simp [GuideEvent.isAttemptOf, ih]

/-- Another chunk's attempt events are filtered away entirely. -/
theorem filter_map_attempt_ne (i j : ℕ) (h : j ≠ i) (t1 : List ℕ) :
    (t1.map (fun a => GuideEvent.attemptCall j a)).filter (GuideEvent.isAttemptOf i) = [] := by
  induction t1 with
  | nil => rfl
  | cons a t ih => simp [GuideEvent.isAttemptOf, ih, h]

/-- A chunk not in the processed index list contributes no oracle-call
events. -/
theorem buildGuideMapAux_filter_not_mem {G : Type} (store : ℕ → Option G)
    (resp : ℕ → ℕ → Option G) (i : ℕ) :
    ∀ l : List ℕ, i ∉ l →
      (buildGuideMapAux store resp l).1.filter (GuideEvent.isAttemptOf i) = [] := by
  intro l
  induction l with
  | nil => intro _; rfl
  | cons j rest ih =>
    intro h
    have hji : j ≠ i := fun e => h (e ▸ List.mem_cons_self _ _)
    have hrest := ih (fun hm => h (List.mem_cons_of_mem _ hm))
    simp only [buildGuideMapAux]
    cases hsj : store j with
    | some g =>
      simp [List.filter_cons, GuideEvent.isAttemptOf, hrest]
    | none =>
      cases ht : (retryAttempts (resp j) 0 3).2 with
      | none =>
        exact filter_map_attempt_ne i j hji _
      | some g =>
        rw [List.filter_append, filter_map_attempt_ne i j hji, List.nil_append]
        exact hrest

/-- With distinct chunk indices, each chunk contributes at most 3
oracle-call events to the trace. -/
theorem buildGuideMapAux_filter_len {G : Type} (store : ℕ → Option G)
    (resp : ℕ → ℕ → Option G) (i : ℕ) :
    ∀ l : List ℕ, l.Nodup →
      ((buildGuideMapAux store resp l).1.filter (GuideEvent.isAttemptOf i)).length ≤ 3 := by
  intro l
  induction l with
  | nil => intro _; simp [buildGuideMapAux]
  | cons j rest ih =>
    intro hnd
    have hnd' : rest.Nodup := (List.nodup_cons.mp hnd).2
    have hjrest : j ∉ rest := (List.nodup_cons.mp hnd).1
    simp only [buildGuideMapAux]
    cases hsj : store j with
    | some g =>
      simp only [List.filter_cons]
      have : GuideEvent.isAttemptOf i (.reuse j) = false := rfl
      rw [this]
      exact ih hnd'
    | none =>
      have hmaplen : ∀ t1 : List ℕ, t1.length ≤ 3 →
          ((t1.map (fun a => GuideEvent.attemptCall j a)).filter
            (GuideEvent.isAttemptOf i)).length ≤ 3 := by
        intro t1 ht1
        calc ((t1.map (fun a => GuideEvent.attemptCall j a)).filter
            (GuideEvent.isAttemptOf i)).length
            ≤ (t1.map (fun a => GuideEvent.attemptCall j a)).length := List.length_filter_le _ _
          _ = t1.length := List.length_map _ _
          _ ≤ 3 := ht1
      cases ht : (retryAttempts (resp j) 0 3).2 with
      | none =>
        exact hmaplen _ (retryAttempts_length (resp j) 3 0)
      | some g =>
        rw [List.filter_append, List.length_append]
        by_cases hji : j = i
        · subst hji
          have h0 : ((buildGuideMapAux store resp rest).1.filter
              (GuideEvent.isAttemptOf j)).length = 0 := by
            rw [buildGuideMapAux_filter_not_mem store resp j rest hjrest]
            rfl
          have := hmaplen _ (retryAttempts_length (resp j) 3 0)
          omega
        · have h0 : (((retryAttempts (resp j) 0 3).1.map
              (fun a => GuideEvent.attemptCall j a)).filter
              (GuideEvent.isAttemptOf i)).length = 0 := by
            rw [filter_map_attempt_ne i j hji]
            rfl
          have := ih hnd'
          omega

/-- While every earlier chunk succeeds (artifact reuse or a successful
retry), the trace records for chunk `i` exactly the attempts of its own
retry loop. -/
theorem buildGuideMapAux_filter_reached {G : Type} (store : ℕ → Option G)
    (resp : ℕ → ℕ → Option G) (i : ℕ) (hstore : store i = none) :
    ∀ (l1 l2 : List ℕ), i ∉ l1 → i ∉ l2 →
      (∀ j ∈ l1, (store j).isSome ∨ ((retryAttempts (resp j) 0 3).2).isSome) →
      (buildGuideMapAux store resp (l1 ++ i :: l2)).1.filter (GuideEvent.isAttemptOf i) =
        (retryAttempts (resp i) 0 3).1.map (GuideEvent.attemptCall i) := by
  intro l1
  induction l1 with
  | nil =>
    intro l2 _ hl2 _
    simp only [List.nil_append, buildGuideMapAux, hstore]
    cases ht : (retryAttempts (resp i) 0 3).2 with
    | none =>
      exact filter_map_attempt_self i _
    | some g =>
      rw [List.filter_append, buildGuideMapAux_filter_not_mem store resp i l2 hl2,
        List.append_nil]
      exact filter_map_attempt_self i _
  | cons j l1' ih =>
    intro l2 hl1 hl2 hok
    have hji : j ≠ i := fun e => hl1 (e ▸ List.mem_cons_self _ _)
    have hl1' : i ∉ l1' := fun hm => hl1 (List.mem_cons_of_mem _ hm)
    have hok' : ∀ j' ∈ l1', (store j').isSome ∨ ((retryAttempts (resp j') 0 3).2).isSome :=
      fun j' hm => hok j' (List.mem_cons_of_mem _ hm)
    have hokj := hok j (List.mem_cons_self _ _)
    simp only [List.cons_append, buildGuideMapAux]
    cases hsj : store j with
    | some g =>
      simp only [List.filter_cons]
      have : GuideEvent.isAttemptOf i (.reuse j) = false := rfl
      rw [this]
      exact ih l2 hl1' hl2 hok'
    | none =>
      cases ht : (retryAttempts (resp j) 0 3).2 with
      | none =>
        rw [hsj, ht] at hokj
        simp at hokj
      | some g =>
        rw [List.filter_append]
        have h0 : (((retryAttempts (resp j) 0 3).1.map
            (fun a => GuideEvent.attemptCall j a)).filter (GuideEvent.isAttemptOf i)) = [] :=
          filter_map_attempt_ne i j hji _
        rw [h0, List.nil_append]
        exact ih l2 hl1' hl2 hok'

/-- Positional description of the successful map phase: one partial
guide per processed chunk, in order, each the stored artifact or the
first successful oracle response. -/
theorem buildGuideMapAux_get {G : Type} (store : ℕ → Option G) (resp : ℕ → ℕ → Option G) :
    ∀ l : List ℕ, ∀ ms, (buildGuideMapAux store resp l).2 = some ms →
      ms.length = l.length ∧
      ∀ k j, l.get? k = some j → ms.get? k = (store j).or ((retryAttempts (resp j) 0 3).2) := by
  intro l
  induction l with
  | nil =>
    intro ms h
    simp only [buildGuideMapAux, Option.some_inj] at h
    subst h
    exact ⟨rfl, fun k j hj => by simp at hj⟩
  | cons j0 rest ih =>
    intro ms h
    simp only [buildGuideMapAux] at h
    cases hs : store j0 with
    | some g =>
      rw [hs] at h
      cases hr : (buildGuideMapAux store resp rest).2 with
      | none => rw [hr] at h; simp at h
      | some ms' =>
        rw [hr] at h
        simp only [Option.map_some', Option.some_inj] at h
        subst h
        obtain ⟨hlen, hget⟩ := ih ms' hr
        refine ⟨by simp [hlen], ?_⟩
        intro k j hj
        cases k with
        | zero =>
          simp only [List.get?_cons_zero, Option.some_inj] at hj
          subst hj
          simp [hs, Option.or]
        | succ k' =>
          simp only [List.get?_cons_succ] at hj ⊢
          exact hget k' j hj
    | none =>
      rw [hs] at h
      cases ht : (retryAttempts (resp j0) 0 3).2 with
      | none => rw [ht] at h; simp at h
      | some g =>
        rw [ht] at h
        cases hr : (buildGuideMapAux store resp rest).2 with
        | none => rw [hr] at h; simp at h
        | some ms' =>
          rw [hr] at h
          simp only [Option.map_some', Option.some_inj] at h
          subst h
          obtain ⟨hlen, hget⟩ := ih ms' hr
          refine ⟨by simp [hlen], ?_⟩
          intro k j hj
          cases k with
          | zero =>
            simp only [List.get?_cons_zero, Option.some_inj] at hj
            subst hj
            simp [hs, ht, Option.or]
          | succ k' =>
            simp only [List.get?_cons_succ] at hj ⊢
            exact hget k' j hj

/-- C6: in the guide map phase (no pre-existing artifacts), each
chunk's oracle call is attempted at most 3 times; while every earlier
chunk succeeded, the trace records for chunk `i` exactly the attempts
of its retry loop (so a chunk succeeding on the third attempt logs
exactly 3 attempts); and a successful run returns exactly one partial
guide per chunk, in chunk order, each the first successful response of
its chunk — so a chunk with no valid response within 3 attempts can
never be silently skipped: the run result is `none` instead. -/
theorem buildGlobalGuideMap_retry {G : Type} (resp : ℕ → ℕ → Option G) (n : ℕ) :
    (∀ i, ((buildGlobalGuideMap (fun _ => none) resp n).1.filter
      (GuideEvent.isAttemptOf i)).length ≤ 3) ∧
    (∀ i, i < n → (∀ j, j < i → ((retryAttempts (resp j) 0 3).2).isSome) →
      (buildGlobalGuideMap (fun _ => none) resp n).1.filter (GuideEvent.isAttemptOf i) =
        (retryAttempts (resp i) 0 3).1.map (GuideEvent.attemptCall i)) ∧
    (∀ ms, (buildGlobalGuideMap (fun _ => none) resp n).2 = some ms →
      ms.length = n ∧ ∀ i, i < n → ms.get? i = (retryAttempts (resp i) 0 3).2) := by
  refine ⟨?_, ?_, ?_⟩
  · intro i
    exact buildGuideMapAux_filter_len _ resp i _ (List.nodup_range n)
  · intro i hi hreach
    have hsplit : List.range n = List.range i ++ i :: List.range' (i + 1) (n - (i + 1)) := by
      have h1 := List.range'_append 0 i ((n - (i + 1)) + 1) 1
      simp only [Nat.zero_add, Nat.one_mul] at h1
      conv_lhs => rw [List.range_eq_range', show n = ((n - (i + 1)) + 1) + i from by omega]
      rw [← h1, List.range'_succ, ← List.range_eq_range']
    rw [buildGlobalGuideMap, hsplit]
    apply buildGuideMapAux_filter_reached _ resp i rfl
    · simp [List.mem_range]
    · intro hm
      have := (List.mem_range'_1.mp hm).1
      omega
    · intro j hj
      have hji : j < i := List.mem_range.mp hj
      exact Or.inr (hreach j hji)
  · intro ms hms
    obtain ⟨hlen, hget⟩ := buildGuideMapAux_get _ resp _ ms hms
    refine ⟨by simpa using hlen, ?_⟩
    intro i hi
    have := hget i i (List.get?_range hi)
    simpa [Option.or] using this

/-- Witness for C6, the spec's example scenario: three chunks, chunk
index 1 returns empty content on attempts 1 and 2 and succeeds on
attempt 3 — the trace logs exactly attempts 1, 2, 3 for that chunk and
the run succeeds with exactly one partial per chunk, in order. -/
theorem buildGlobalGuideMap_retry_witness :
    (buildGlobalGuideMap (fun _ => none) respW 3).1.filter (GuideEvent.isAttemptOf 1) =
      (retryAttempts (respW 1) 0 3).1.map (GuideEvent.attemptCall 1) ∧
    (buildGlobalGuideMap (fun _ => none) respW 3).1.filter (GuideEvent.isAttemptOf 1) =
      [GuideEvent.attemptCall 1 1, GuideEvent.attemptCall 1 2, GuideEvent.attemptCall 1 3] ∧
    (buildGlobalGuideMap (fun _ => none) respW 3).2 = some [20, 11, 22] := by
  refine ⟨?_, by rfl, by rfl⟩
  apply (buildGlobalGuideMap_retry respW 3).2.1 1 (by decide)
  intro j hj
  have hj0 : j = 0 := by omega
  subst hj0
  decide

/-- C10: when an artifact `guide_output_XX.json` exists for chunk `i`
(and parses), `buildGlobalGuide` reuses it as the chunk's partial guide
and issues no oracle call for that chunk — the guide map phase is
idempotent per chunk index. -/
theorem buildGlobalGuideMap_reuse {G : Type} (store : ℕ → Option G) (resp : ℕ → ℕ → Option G)
    (n i : ℕ) (g : G) (hg : store i = some g) :
    (∀ a, GuideEvent.attemptCall i a ∉ (buildGlobalGuideMap store resp n).1) ∧
    (∀ ms, (buildGlobalGuideMap store resp n).2 = some ms → i < n →
      ms.get? i = some g) := by
  constructor
  · intro a
    have haux : ∀ l : List ℕ, GuideEvent.attemptCall i a ∉ (buildGuideMapAux store resp l).1 := by
      intro l
      induction l with
      | nil => simp [buildGuideMapAux]
      | cons j rest ih =>
        simp only [buildGuideMapAux]
        cases hsj : store j with
        | some g' =>
          intro hmem
          rcases List.mem_cons.mp hmem with h | h
          · exact GuideEvent.noConfusion h
          · exact ih h
        | none =>
          have hji : j ≠ i := by
            intro e
            rw [e, hg] at hsj
            exact Option.noConfusion hsj
          have hmap : ∀ t1 : List ℕ,
              GuideEvent.attemptCall i a ∉ t1.map (fun x => GuideEvent.attemptCall j x) := by
            intro t1 hmem
            obtain ⟨x, -, hx⟩ := List.mem_map.mp hmem
            exact hji (by cases hx; rfl)
          cases ht : (retryAttempts (resp j) 0 3).2 with
          | none => exact hmap _
          | some g' =>
            intro hmem
            rcases List.mem_append.mp hmem with h | h
            · exact hmap _ h
            · exact ih h
    exact haux _
  · intro ms hms hi
    obtain ⟨-, hget⟩ := buildGuideMapAux_get store resp _ ms hms
    have := hget i i (List.get?_range hi)
    rw [this, hg]
    rfl

/-- Witness for C10 at a concrete store holding an artifact for chunk
0: no oracle call is issued for chunk 0, and the run's partial for
chunk 0 is the stored artifact, verbatim. -/
theorem buildGlobalGuideMap_reuse_witness :
    GuideEvent.attemptCall 0 1 ∉ (buildGlobalGuideMap storeG respW 3).1 ∧
    (buildGlobalGuideMap storeG respW 3).2 = some [7, 11, 22] ∧
    ([7, 11, 22] : List ℕ).get? 0 = some 7 := by
  refine ⟨?_, by rfl, ?_⟩
  · exact (buildGlobalGuideMap_reuse storeG respW 3 0 7 (by rfl)).1 1
  · exact (buildGlobalGuideMap_reuse storeG respW 3 0 7 (by rfl)).2 [7, 11, 22]
      (by rfl) (by decide)

/-- Flattening a prefix of a piece list never exceeds the flattened
whole. -/
theorem flatten_take_length_le {β : Type} (L : List (List β)) (k : ℕ) :
    ((L.take k).flatten).length ≤ L.flatten.length := by
  conv_rhs => rw [← List.take_append_drop k L]
  rw [List.flatten_append, List.length_append]
  omega

/-- Token offsets stay within the text. -/
theorem Tokenizer.offsetAt_le_length (tk : Tokenizer) (s : List Char) (k : ℕ) :
    tk.offsetAt s k ≤ s.length := by
  have h := flatten_take_length_le (tk.encode s) k
  rw [tk.join_encode] at h
  exact h

/-- The offset of the final token index is the text length. -/
theorem Tokenizer.offsetAt_count (tk : Tokenizer) (s : List Char) :
    tk.offsetAt s (tk.count s) = s.length := by
  unfold Tokenizer.offsetAt Tokenizer.count
  rw [List.take_length, tk.join_encode]

/-- Token offsets are monotone in the token index. -/
theorem Tokenizer.offsetAt_mono (tk : Tokenizer) (s : List Char) {k k' : ℕ} (h : k ≤ k') :
    tk.offsetAt s k ≤ tk.offsetAt s k' := by
  unfold Tokenizer.offsetAt
  rw [show (tk.encode s).take k = ((tk.encode s).take k').take k from by
    rw [List.take_take, min_eq_left h]]
  exact flatten_take_length_le _ _

/-- Token offsets are strictly monotone below the token count (tokens
are nonempty). -/
theorem Tokenizer.offsetAt_strict (tk : Tokenizer) (s : List Char) {k : ℕ}
    (h : k < tk.count s) : tk.offsetAt s k < tk.offsetAt s (k + 1) := by
  unfold Tokenizer.offsetAt
  have h' : k < (tk.encode s).length := h
  have hk : (tk.encode s)[k]? = some ((tk.encode s)[k]) := List.getElem?_eq_getElem h'
  rw [List.take_succ, hk]
  have hne := tk.encode_ne s _ (List.getElem_mem h')
  have hpos : 0 < ((tk.encode s)[k]).length := List.length_pos.mpr hne
  simp only [Option.toList_some, List.flatten_append, List.length_append]
  simp only [List.flatten_cons, List.flatten_nil, List.append_nil]
  omega

/-- A text has no tokens exactly when it is empty. -/
theorem Tokenizer.count_eq_zero (tk : Tokenizer) (s : List Char) :
    tk.count s = 0 ↔ s = [] := by
  constructor
  · intro h
    have he : tk.encode s = [] := List.length_eq_zero.mp h
    have := tk.join_encode s
    rw [he] at this
    exact this.symm
  · intro h
    subst h
    cases he : tk.encode [] with
    | nil => simp [Tokenizer.count, he]
    | cons p rest =>
      have hj := tk.join_encode []
      rw [he] at hj
      have hp : p = [] ∧ ∀ l ∈ rest, l = [] := by simpa using hj
      exact absurd hp.1 (tk.encode_ne [] p (he ▸ List.mem_cons_self _ _))

/-- A nonempty text has a positive token count. -/
theorem Tokenizer.count_pos (tk : Tokenizer) {s : List Char} (h : s ≠ []) :
    1 ≤ tk.count s := by
  rcases Nat.eq_zero_or_pos (tk.count s) with h0 | h1
  · exact absurd ((tk.count_eq_zero s).mp h0) h
  · exact h1

/-- `encode_progress` restated through `count` and `offsetAt`: the
re-encoded cursor strictly advances. -/
theorem Tokenizer.count_take_progress (tk : Tokenizer) (text : List Char) {k c : ℕ}
    (hk : k < tk.count text) (hc : tk.offsetAt text k < c) : k < tk.count (text.take c) :=
  tk.encode_progress text k c hk hc

/-- An element produced by `getLast?` belongs to the list. -/
theorem mem_of_getLast?_eq_some {β : Type} {l : List β} {a : β}
    (h : l.getLast? = some a) : a ∈ l := by
  have hne : l ≠ [] := by intro e; subst e; simp at h
  rw [List.getLast?_eq_getLast_of_ne_nil hne] at h
  have ha : a = l.getLast hne := (Option.some_inj.mp h).symm
  exact ha ▸ List.getLast_mem hne

/-- A paragraph cut index lies inside the slice. -/
theorem lastParagraphCut_lt (sl : List Char) {i : ℕ} (h : lastParagraphCut sl = some i) :
    i < sl.length := by
  unfold lastParagraphCut at h
  exact List.mem_range.mp (List.mem_of_mem_filter (mem_of_getLast?_eq_some h))

/-- A sentence cut index lies inside the slice. -/
theorem lastSentenceCut_lt (sl : List Char) {i : ℕ} (h : lastSentenceCut sl = some i) :
    i < sl.length := by
  unfold lastSentenceCut at h
  exact List.mem_range.mp (List.mem_of_mem_filter (mem_of_getLast?_eq_some h))

/-- The boundary search never cuts beyond the window ceiling and the
text end. -/
theorem computeBestCut_le (text : List Char) (sc wsc mc : ℕ) :
    computeBestCut text sc wsc mc ≤ max mc text.length := by
  have hslice : ((text.take mc).drop wsc).length = min mc text.length - wsc := by
    rw [List.length_drop, List.length_take]
  simp only [computeBestCut]
  cases hpc : lastParagraphCut ((text.take mc).drop wsc) with
  | some idx =>
    have hlt := lastParagraphCut_lt _ hpc
    rw [hslice] at hlt
    have key : wsc + idx < min mc text.length := lt_tsub_iff_left.mp hlt
    simp only [hpc]
    split
    · exact le_max_left _ _
    · exact ((key.trans_le (min_le_left _ _)).le).trans (le_max_left _ _)
  | none =>
    cases hsc2 : lastSentenceCut ((text.take mc).drop wsc) with
    | some i =>
      have hlt := lastSentenceCut_lt _ hsc2
      rw [hslice] at hlt
      have key : wsc + i < min mc text.length := lt_tsub_iff_left.mp hlt
      simp only [hpc, hsc2]
      split
      · exact le_max_left _ _
      · exact (Nat.succ_le_of_lt key).trans ((min_le_left _ _).trans (le_max_left _ _))
    | none =>
      simp only [hpc, hsc2]
      split <;> exact le_max_left _ _

/-- A trimmed-nonempty list is nonempty. -/
theorem wtrim_ne_nil {l : List Char} (h : wtrim l ≠ []) : l ≠ [] :=
  fun e => h (by rw [e]; rfl)

/-- Past the token sequence, the loop stops. -/
theorem splitStep_stop_of_ge {tk : Tokenizer} {text : List Char} {t o : ℕ} {tol : ℚ} {s : ℕ}
    (h : tk.count text ≤ s) : splitStep tk text t o tol s = .stop := by
  simp only [splitStep]
  rw [if_neg (not_lt.mpr h)]

/-- The empty-piece skip path strictly advances the cursor and stays
within the token sequence. -/
theorem splitStep_skip {tk : Tokenizer} {text : List Char} {t o : ℕ} {tol : ℚ} {s nxt : ℕ}
    (h : splitStep tk text t o tol s = .skip nxt) :
    s < tk.count text ∧ s < nxt ∧ nxt ≤ tk.count text := by
  simp only [splitStep] at h
  by_cases h1 : s < tk.count text
  swap
  · rw [if_neg h1] at h
    exact StepRes.noConfusion h
  rw [if_pos h1] at h
  refine ⟨h1, ?_⟩
  split_ifs at h
  have hinj : min (tk.count text) (s + max 1 (jroundDiv (t : ℤ) 2)) = nxt := by injection h
  have hmax : 1 ≤ max 1 (jroundDiv (t : ℤ) 2) := le_max_left _ _
  omega

/-- The emit path: the cursor strictly advances, the produced boundary
starts at the cursor's character offset, is nonempty, stays within the
text, records a positive token count, and satisfies the budget
trichotomy (floor reached, cut clamped at end of text, or forward
extension of a sub-floor piece). -/
theorem splitStep_emit {tk : Tokenizer} {text : List Char} {t o : ℕ} {tol : ℚ} {s : ℕ}
    {c : List Char} {b : Boundary} {nxt : ℕ}
    (h : splitStep tk text t o tol s = .emit c b nxt) :
    s < tk.count text ∧ s < nxt ∧
    b.start = tk.offsetAt text s ∧ b.start < b.stop ∧ b.stop ≤ text.length ∧ 1 ≤ b.tokens ∧
    (max 50 (jroundDiv ((t : ℤ) * ((tol.den : ℤ) - tol.num)) tol.den) ≤ b.tokens ∨
      b.stop = text.length ∨
      ∃ cut, b.start < cut ∧ cut ≤ b.stop ∧
        tk.count (wtrim ((text.take cut).drop b.start)) <
          max 50 (jroundDiv ((t : ℤ) * ((tol.den : ℤ) - tol.num)) tol.den)) := by
  simp only [splitStep] at h
  by_cases h1 : s < tk.count text
  swap
  · rw [if_neg h1] at h
    exact StepRes.noConfusion h
  rw [if_pos h1] at h
  set n := tk.count text with hn
  set startChar := tk.offsetAt text s with hstartChar
  set tolTok := jroundDiv ((t : ℤ) * tol.num) tol.den with htolTok
  set endTarget := min n (s + t) with hendTarget
  set endTok := min n (endTarget + tolTok) with hendTok
  set maxChar := tk.offsetAt text endTok with hmaxChar
  set wsc := tk.offsetAt text (endTarget - tolTok) with hwsc
  set bestCut := computeBestCut text startChar wsc maxChar with hbestCut
  set piece := wtrim ((text.take bestCut).drop startChar) with hpiece
  set pieceTokens := tk.count piece with hpieceTokens
  set minT := max 50 (jroundDiv ((t : ℤ) * ((tol.den : ℤ) - tol.num)) tol.den) with hminT
  clear_value n startChar tolTok endTarget endTok maxChar wsc bestCut piece pieceTokens minT
  have h1' : s < tk.count text := by rw [← hn]; exact h1
  by_cases h2 : pieceTokens = 0 ∨ piece.length = 0
  · rw [if_pos h2] at h
    by_cases h3 : n ≤ s
    · rw [if_pos h3] at h; exact StepRes.noConfusion h
    · rw [if_neg h3] at h; exact StepRes.noConfusion h
  rw [if_neg h2] at h
  push_neg at h2
  obtain ⟨h2a, h2b⟩ := h2
  have hpne : piece ≠ [] := fun e => h2b (by rw [e]; rfl)
  have hinner : (text.take bestCut).drop startChar ≠ [] := by
    intro e
    apply hpne
    rw [hpiece, e]
    rfl
  have hlen0 : ((text.take bestCut).drop startChar).length ≠ 0 :=
    fun e => hinner (List.length_eq_zero.mp e)
  have hlen : ((text.take bestCut).drop startChar).length = min bestCut text.length - startChar := by
    rw [List.length_drop, List.length_take]
  have hsc_bc : startChar < bestCut := by omega
  have hsc_len : startChar < text.length := by omega
  have hbc_len : bestCut ≤ text.length := by
    have hcb := computeBestCut_le text startChar wsc maxChar
    have hmc : maxChar ≤ text.length := by rw [hmaxChar]; exact tk.offsetAt_le_length text endTok
    rw [← hbestCut] at hcb
    omega
  by_cases h4 : pieceTokens < minT ∧ bestCut < text.length
  · rw [if_pos h4] at h
    set extraEnd := min text.length (bestCut + jroundDiv (piece.length : ℤ) 5) with hextraEnd
    set extended := (text.take extraEnd).drop startChar with hextended
    have hA : wtrim extended = c := by injection h
    have hB : (⟨startChar, extraEnd, tk.count extended⟩ : Boundary) = b := by injection h
    have hC : tk.count (text.take
        (max (startChar + extended.length - jroundDiv ((extended.length : ℤ) * (o : ℤ))
          (max 1 pieceTokens)) (startChar + 1))) = nxt := by injection h
    subst hA hB hC
    clear_value extraEnd extended
    have hbc_ee : bestCut ≤ extraEnd := by
      rw [hextraEnd]
      exact le_min hbc_len (Nat.le_add_right _ _)
    have hee_len : extraEnd ≤ text.length := by rw [hextraEnd]; exact min_le_left _ _
    have hel : extended.length = min extraEnd text.length - startChar := by
      rw [hextended, List.length_drop, List.length_take]
    have hext_ne : extended ≠ [] := by
      intro e
      rw [e] at hel
      simp only [List.length_nil] at hel
      omega
    refine ⟨h1, ?_, rfl, ?_, ?_, ?_, ?_⟩
    · apply tk.count_take_progress text h1'
      rw [← hstartChar]
      exact lt_of_lt_of_le (Nat.lt_succ_self startChar) (le_max_right _ _)
    · exact lt_of_lt_of_le hsc_bc hbc_ee
    · exact hee_len
    · exact tk.count_pos hext_ne
    · refine Or.inr (Or.inr ⟨bestCut, hsc_bc, hbc_ee, ?_⟩)
      rw [← hpiece, ← hpieceTokens]
      exact h4.1
  · rw [if_neg h4] at h
    have hA : piece = c := by injection h
    have hB : (⟨startChar, bestCut, pieceTokens⟩ : Boundary) = b := by injection h
    have hC : tk.count (text.take
        (max (startChar + piece.length - jroundDiv ((piece.length : ℤ) * (o : ℤ))
          (max 1 pieceTokens)) (startChar + 1))) = nxt := by injection h
    subst hA hB hC
    push_neg at h4
    refine ⟨h1, ?_, rfl, hsc_bc, hbc_len, ?_, ?_⟩
    · apply tk.count_take_progress text h1'
      rw [← hstartChar]
      exact lt_of_lt_of_le (Nat.lt_succ_self startChar) (le_max_right _ _)
    · show 1 ≤ pieceTokens
      omega
    · by_cases hfloor : pieceTokens < minT
      · have hcl := h4 hfloor
        exact Or.inr (Or.inl (le_antisymm hbc_len hcl))
      · exact Or.inl (not_lt.mp hfloor)

/-- A stopped iteration produces nothing for any fuel. -/
theorem splitLoop_of_stop {tk : Tokenizer} {text : List Char} {t o : ℕ} {tol : ℚ} {s : ℕ}
    (h : splitStep tk text t o tol s = .stop) :
    ∀ fuel, splitLoop tk text t o tol fuel s = ([], []) := by
  intro fuel
  cases fuel with
  | zero => rfl
  | succ f => simp [splitLoop, h]

/-- Loop invariant: every boundary emitted from cursor `s` on starts at
or after `s`'s character offset, is nonempty, stays inside the text,
has a positive token count, and satisfies the budget trichotomy. -/
theorem splitLoop_boundaries (tk : Tokenizer) (text : List Char) (t o : ℕ) (tol : ℚ) :
    ∀ (fuel s : ℕ), ∀ b ∈ (splitLoop tk text t o tol fuel s).2,
      tk.offsetAt text s ≤ b.start ∧ b.start < b.stop ∧ b.stop ≤ text.length ∧
      1 ≤ b.tokens ∧
      (max 50 (jroundDiv ((t : ℤ) * ((tol.den : ℤ) - tol.num)) tol.den) ≤ b.tokens ∨
        b.stop = text.length ∨
        ∃ cut, b.start < cut ∧ cut ≤ b.stop ∧
          tk.count (wtrim ((text.take cut).drop b.start)) <
            max 50 (jroundDiv ((t : ℤ) * ((tol.den : ℤ) - tol.num)) tol.den)) := by
  intro fuel
  induction fuel with
  | zero => intro s b hb; simp [splitLoop] at hb
  | succ f ih =>
    intro s b hb
    cases hstep : splitStep tk text t o tol s with
    | stop => rw [splitLoop, hstep] at hb; simp at hb
    | skip nxt =>
      rw [splitLoop, hstep] at hb
      obtain ⟨-, h2, -⟩ := splitStep_skip hstep
      have hres := ih nxt b hb
      exact ⟨le_trans (tk.offsetAt_mono text (le_of_lt h2)) hres.1, hres.2⟩
    | emit c b0 nxt =>
      rw [splitLoop, hstep] at hb
      obtain ⟨hs, hlt, hstart, hord, hstop, htok, hbud⟩ := splitStep_emit hstep
      rcases List.mem_cons.mp hb with rfl | hb'
      · exact ⟨le_of_eq hstart.symm, hord, hstop, htok, hbud⟩
      · have hres := ih nxt b hb'
        exact ⟨le_trans (tk.offsetAt_mono text (le_of_lt hlt)) hres.1, hres.2⟩

/-- Loop invariant: emitted boundaries have strictly increasing start
offsets. -/
theorem splitLoop_pairwise (tk : Tokenizer) (text : List Char) (t o : ℕ) (tol : ℚ) :
    ∀ (fuel s : ℕ),
      List.Pairwise (fun a b => a.start < b.start) (splitLoop tk text t o tol fuel s).2 := by
  intro fuel
  induction fuel with
  | zero => intro s; simp [splitLoop]
  | succ f ih =>
    intro s
    cases hstep : splitStep tk text t o tol s with
    | stop => rw [splitLoop, hstep]; simp
    | skip nxt => rw [splitLoop, hstep]; exact ih nxt
    | emit c b0 nxt =>
      rw [splitLoop, hstep]
      obtain ⟨hs, hlt, hstart, -, -, -, -⟩ := splitStep_emit hstep
      refine List.Pairwise.cons ?_ (ih nxt)
      intro b hb
      have hres := (splitLoop_boundaries tk text t o tol f nxt b hb).1
      have hinc : tk.offsetAt text s < tk.offsetAt text nxt :=
        lt_of_lt_of_le (tk.offsetAt_strict text hs) (tk.offsetAt_mono text hlt)
      rw [hstart]
      omega

/-- Loop invariant: the loop emits at most one boundary per remaining
token. -/
theorem splitLoop_length (tk : Tokenizer) (text : List Char) (t o : ℕ) (tol : ℚ) :
    ∀ (fuel s : ℕ), (splitLoop tk text t o tol fuel s).2.length ≤ tk.count text - s := by
  intro fuel
  induction fuel with
  | zero => intro s; simp [splitLoop]
  | succ f ih =>
    intro s
    cases hstep : splitStep tk text t o tol s with
    | stop => rw [splitLoop, hstep]; simp
    | skip nxt =>
      simp only [splitLoop, hstep]
      obtain ⟨h1, h2, -⟩ := splitStep_skip hstep
      have := ih nxt
      omega
    | emit c b0 nxt =>
      simp only [splitLoop, hstep]
      obtain ⟨h1, h2, -⟩ := splitStep_emit hstep
      have := ih nxt
      simp only [List.length_cons]
      omega

/-- Fuel irrelevance: any two fuels above the remaining token count
give the same result, so the fuel used by `splitByTokensElastic` models
the unbounded source loop exactly. -/
theorem splitLoop_stable (tk : Tokenizer) (text : List Char) (t o : ℕ) (tol : ℚ) :
    ∀ (f1 f2 s : ℕ), tk.count text - s < f1 → tk.count text - s < f2 →
      splitLoop tk text t o tol f1 s = splitLoop tk text t o tol f2 s := by
  intro f1
  induction f1 with
  | zero => intro f2 s h1 h2; omega
  | succ f ih =>
    intro f2 s h1 h2
    cases f2 with
    | zero => omega
    | succ f2' =>
      cases hstep : splitStep tk text t o tol s with
      | stop => simp only [splitLoop, hstep]
      | skip nxt =>
        simp only [splitLoop, hstep]
        obtain ⟨hs, hlt, -⟩ := splitStep_skip hstep
        exact ih f2' nxt (by omega) (by omega)
      | emit c b0 nxt =>
        simp only [splitLoop, hstep]
        obtain ⟨hs, hlt, -⟩ := splitStep_emit hstep
        rw [ih f2' nxt (by omega) (by omega)]

/-- C1 (amended): the boundaries returned by `splitByTokensElastic`
are strictly ordered by start offset, and each one is a nonempty
in-bounds span with a positive recorded token count.  Gap-free coverage
of `[0, len(text))` does not hold: the empty-chunk skip path can move
the cursor past text (e.g. whitespace) without emitting a boundary, so
the first boundary need not start at offset 0 and consecutive
boundaries may leave gaps (see the counterexample). -/
theorem splitByTokensElastic_boundary_order (tk : Tokenizer) (text : List Char)
    (targetTokens overlapTokens : ℕ) (tolerance : ℚ) :
    List.Pairwise (fun a b => a.start < b.start)
      (splitByTokensElastic tk text targetTokens overlapTokens tolerance).2 ∧
    ∀ b ∈ (splitByTokensElastic tk text targetTokens overlapTokens tolerance).2,
      b.start < b.stop ∧ b.stop ≤ text.length ∧ 1 ≤ b.tokens := by
  constructor
  · rw [splitByTokensElastic]
    exact splitLoop_pairwise tk text _ _ _ _ _
  · intro b hb
    rw [splitByTokensElastic] at hb
    have h := splitLoop_boundaries tk text _ _ _ _ _ b hb
    exact ⟨h.2.1, h.2.2.1, h.2.2.2.1⟩

/-- Witness for C1 on a concrete four-character text: the emitted
trailing boundary is nonempty, in bounds, and has a positive token
count. -/
theorem splitByTokensElastic_boundary_order_witness :
    (⟨3, 4, 1⟩ : Boundary).start < (⟨3, 4, 1⟩ : Boundary).stop ∧
    (⟨3, 4, 1⟩ : Boundary).stop ≤ (['a', 'b', 'c', 'd'] : List Char).length ∧
    1 ≤ (⟨3, 4, 1⟩ : Boundary).tokens :=
  (splitByTokensElastic_boundary_order charTok ['a', 'b', 'c', 'd'] 50 1 (mkRat 3 20)).2
    ⟨3, 4, 1⟩ (by decide)

/-- Counterexample for C1: on the 9-character text of 8 spaces followed
by `a`, with valid parameters (target 4, overlap 1, tolerance 0.15),
every returned boundary starts at offset 4 or later — the first
boundary does not start at 0 and the characters 0..3 are covered by no
boundary, so the returned spans do not reconstruct `[0, 9)`. -/
theorem splitByTokensElastic_coverage_counterexample :
    ((splitByTokensElastic charTok (List.replicate 8 ' ' ++ ['a']) 4 1 (mkRat 3 20)).2.map
      Boundary.start) = [4, 5, 6, 7, 8] ∧
    (List.replicate 8 ' ' ++ ['a'] : List Char).length = 9 := by
  exact ⟨by rfl, by rfl⟩

/-- C2 (amended): every chunk recorded by `splitByTokensElastic`
either reaches the code's token floor
`max 50 (round(target*(1-tolerance)))` — note the absolute floor of 50
overriding `target*(1-tolerance)` for small targets — or ends exactly
at the end of the text (clamped cut), or is the 20% forward extension
of a piece whose trimmed token count was below the floor.  The upper
bound `target*(1+tolerance)` of the claimed band is not enforced at
all (see the counterexample). -/
theorem splitByTokensElastic_budget_floor (tk : Tokenizer) (text : List Char)
    (targetTokens overlapTokens : ℕ) (tolerance : ℚ) :
    ∀ b ∈ (splitByTokensElastic tk text targetTokens overlapTokens tolerance).2,
      max 50 (jroundDiv ((targetTokens : ℤ) * ((tolerance.den : ℤ) - tolerance.num))
        tolerance.den) ≤ b.tokens ∨
      b.stop = text.length ∨
      ∃ cut, b.start < cut ∧ cut ≤ b.stop ∧
        tk.count (wtrim ((text.take cut).drop b.start)) <
          max 50 (jroundDiv ((targetTokens : ℤ) * ((tolerance.den : ℤ) - tolerance.num))
            tolerance.den) := by
  intro b hb
  rw [splitByTokensElastic] at hb
  exact (splitLoop_boundaries tk text _ _ _ _ _ b hb).2.2.2.2

/-- Witness for C2 on a concrete three-character text whose single
chunk is clamped at the end of the text. -/
theorem splitByTokensElastic_budget_floor_witness :
    max 50 (jroundDiv ((40 : ℤ) * (((mkRat 1 10).den : ℤ) - (mkRat 1 10).num))
      (mkRat 1 10).den) ≤ (⟨0, 3, 3⟩ : Boundary).tokens ∨
    (⟨0, 3, 3⟩ : Boundary).stop = (['x', 'y', 'z'] : List Char).length ∨
    ∃ cut, (⟨0, 3, 3⟩ : Boundary).start < cut ∧ cut ≤ (⟨0, 3, 3⟩ : Boundary).stop ∧
      charTok.count (wtrim (((['x', 'y', 'z'] : List Char).take cut).drop
        (⟨0, 3, 3⟩ : Boundary).start)) <
        max 50 (jroundDiv ((40 : ℤ) * (((mkRat 1 10).den : ℤ) - (mkRat 1 10).num))
          (mkRat 1 10).den) :=
  splitByTokensElastic_budget_floor charTok ['x', 'y', 'z'] 40 0 (mkRat 1 10)
    ⟨0, 3, 3⟩ (by decide)

/-- Counterexample for C2: on a 60-token document with target 10,
overlap 1, tolerance 0.1, the first returned chunk is not the final one
and records 13 tokens, outside the claimed band
`[10*(1-0.1), 10*(1+0.1)] = [9, 11]`, while the remaining document (60
tokens) is far above the floor — the 20% extension path overshoots the
band's ceiling. -/
theorem splitByTokensElastic_budget_counterexample :
    (splitByTokensElastic charTok (List.replicate 60 'a') 10 1 (mkRat 1 10)).2.head? =
      some ⟨0, 13, 13⟩ ∧
    (splitByTokensElastic charTok (List.replicate 60 'a') 10 1 (mkRat 1 10)).2.length = 6 ∧
    ¬ ((13 : ℚ) ≤ 10 * (1 + mkRat 1 10)) ∧
    (10 : ℚ) * (1 - mkRat 1 10) ≤ 60 := by
  refine ⟨by rfl, by rfl, ?_, ?_⟩
  · rw [Rat.mkRat_eq_div]
    norm_num
  · rw [Rat.mkRat_eq_div]
    norm_num

/-- C3 (amended): the segmentation loop terminates on every input —
the fuelled model is stable under any extra fuel, so it computes the
limit of the source's `while` loop — and the number of emitted chunks
is at most `totalTokens` (each iteration strictly advances the token
cursor).  The claimed `O(totalTokens/targetTokens)` chunk bound is
false: with positive overlap a short document can produce one chunk
per token (see the counterexample). -/
theorem splitByTokensElastic_terminates (tk : Tokenizer) (text : List Char)
    (targetTokens overlapTokens : ℕ) (tolerance : ℚ) (extra : ℕ) :
    splitLoop tk text targetTokens overlapTokens tolerance (tk.count text + 1 + extra) 0 =
      splitByTokensElastic tk text targetTokens overlapTokens tolerance ∧
    (splitByTokensElastic tk text targetTokens overlapTokens tolerance).2.length ≤
      tk.count text := by
  constructor
  · rw [splitByTokensElastic]
    exact splitLoop_stable tk text _ _ _ _ _ 0 (by omega) (by omega)
  · have h := splitLoop_length tk text targetTokens overlapTokens tolerance
      (tk.count text + 1) 0
    rw [splitByTokensElastic]
    omega

/-- Counterexample for C3's chunk bound: a 21-token document with
target 200 and overlap 20 produces 21 chunks — one per token — though
`totalTokens/targetTokens ≈ 0.1`; the iteration count is driven by the
overlap pull-back, not by `totalTokens/targetTokens`. -/
theorem splitByTokensElastic_iteration_counterexample :
    (splitByTokensElastic charTok (List.replicate 21 'a') 200 20 (mkRat 3 20)).2.length = 21 ∧
    charTok.count (List.replicate 21 'a') = 21 := by
  exact ⟨by rfl, by rfl⟩

/-- Without `'\n'` characters there is no paragraph cut. -/
theorem lastParagraphCut_none {sl : List Char} (h : ∀ c ∈ sl, c ≠ '\n') :
    lastParagraphCut sl = none := by
  unfold lastParagraphCut
  rw [List.filter_eq_nil_iff.mpr ?_]
  · rfl
  · intro i hi
    cases hg : sl.get? i with
    | none => simp [hg]
    | some ch =>
      have hmem : ch ∈ sl := List.get?_mem hg
      simp [hg, h ch hmem]

/-- Without sentence-terminal characters there is no sentence cut. -/
theorem lastSentenceCut_none {sl : List Char} (h : ∀ c ∈ sl, isSentenceEnd c = false) :
    lastSentenceCut sl = none := by
  unfold lastSentenceCut
  rw [List.filter_eq_nil_iff.mpr ?_]
  · rfl
  · intro i hi
    cases hg : sl.get? i with
    | none => simp [hg]
    | some ch =>
      have hmem : ch ∈ sl := List.get?_mem hg
      simp [hg, h ch hmem]

/-- Dropping leading whitespace is the identity on whitespace-free
lists. -/
theorem dropWhile_ws_eq_self {l : List Char} (h : ∀ c ∈ l, isJsWS c = false) :
    l.dropWhile isJsWS = l := by
  cases l with
  | nil => rfl
  | cons a t =>
    rw [List.dropWhile_cons, if_neg]
    simp [h a (List.mem_cons_self _ _)]

/-- JavaScript `trim` is the identity on whitespace-free text. -/
theorem wtrim_eq_self {l : List Char} (h : ∀ c ∈ l, isJsWS c = false) : wtrim l = l := by
  unfold wtrim
  rw [dropWhile_ws_eq_self h,
    dropWhile_ws_eq_self (fun c hc => h c (List.mem_reverse.mp hc)), List.reverse_reverse]

/-- Rounding `0 / m` gives 0 for positive `m`. -/
theorem jroundDiv_zero {m : ℕ} (hm : 1 ≤ m) : jroundDiv 0 m = 0 := by
  unfold jroundDiv
  rw [show (2 * (0:ℤ) + m) / (2 * (m:ℤ)) = 0 from
    Int.ediv_eq_zero_of_lt (by omega) (by omega)]
  rfl

/-- C8 (amended): a document whose token count is below
`target*(1-tolerance)` yields exactly one chunk provided the overlap is
zero and no whitespace or sentence-terminal character occurs in the
text (so neither trimming, a boundary cut, nor the overlap pull-back
can retrigger the loop); the claim is false for positive overlaps (see
the counterexample). -/
theorem splitByTokensElastic_single_chunk (tk : Tokenizer) (text : List Char)
    (targetTokens : ℕ) (tolerance : ℚ) (htol : 0 ≤ tolerance) (hne : text ≠ [])
    (hchar : ∀ c ∈ text, isJsWS c = false ∧ isSentenceEnd c = false)
    (hsize : (tk.count text : ℚ) < targetTokens * (1 - tolerance)) :
    splitByTokensElastic tk text targetTokens 0 tolerance =
      ([text], [⟨0, text.length, tk.count text⟩]) := by
  have hn1 : 1 ≤ tk.count text := tk.count_pos hne
  have hlen1 : 1 ≤ text.length := by
    cases text with
    | nil => exact absurd rfl hne
    | cons a l => simp
  have hnt : tk.count text < targetTokens := by
    have hzero : (0:ℚ) ≤ (targetTokens : ℚ) := Nat.cast_nonneg _
    have h1tol : (1:ℚ) - tolerance ≤ 1 := by linarith
    have hle : (targetTokens : ℚ) * (1 - tolerance) ≤ targetTokens :=
      mul_le_of_le_one_right hzero h1tol
    exact_mod_cast lt_of_lt_of_le hsize hle
  have hws : ∀ c ∈ text, isJsWS c = false := fun c hc => (hchar c hc).1
  have hkey : splitStep tk text targetTokens 0 tolerance 0 =
      .emit text ⟨0, text.length, tk.count text⟩ (tk.count text) := by
    simp only [splitStep]
    rw [if_pos (by omega : 0 < tk.count text)]
    rw [Nat.zero_add]
    rw [min_eq_left (le_of_lt hnt)]
    rw [min_eq_left (Nat.le_add_right _ _)]
    rw [show tk.offsetAt text 0 = 0 from rfl]
    rw [tk.offsetAt_count text]
    rw [show computeBestCut text 0
        (tk.offsetAt text
          (tk.count text - jroundDiv ((targetTokens : ℤ) * tolerance.num) tolerance.den))
        text.length = text.length from ?_]
    swap
    · simp only [computeBestCut]
      rw [lastParagraphCut_none ?_, lastSentenceCut_none ?_]
      · rw [if_neg (by omega : ¬ text.length ≤ 0)]
      · intro c hc
        have hmem : c ∈ text := List.take_subset _ _ (List.drop_subset _ _ hc)
        exact (hchar c hmem).2
      · intro c hc e
        have hmem : c ∈ text := List.take_subset _ _ (List.drop_subset _ _ hc)
        have := hws c hmem
        rw [e] at this
        exact absurd this (by decide)
    rw [List.take_length, List.drop_zero, wtrim_eq_self hws]
    rw [if_neg (by push_neg; exact ⟨by omega, by omega⟩ :
      ¬ (tk.count text = 0 ∨ text.length = 0))]
    rw [if_neg (fun hcon => lt_irrefl _ hcon.2)]
    rw [show ((0 : ℕ) : ℤ) = 0 from rfl, mul_zero, jroundDiv_zero (le_max_left _ _)]
    rw [Nat.zero_add, Nat.zero_add, Nat.sub_zero]
    rw [max_eq_left hlen1]
    rw [List.take_length]
  rw [splitByTokensElastic]
  rw [show tk.count text + 1 = (tk.count text) + 1 from rfl]
  simp only [splitLoop, hkey]
  rw [splitLoop_of_stop (splitStep_stop_of_ge (le_refl _))]

/-- Witness for C8: a three-character whitespace-free document with
target 100, overlap 0 and tolerance 0.15 yields exactly one chunk
spanning the whole text. -/
theorem splitByTokensElastic_single_chunk_witness :
    splitByTokensElastic charTok ['a', 'b', 'c'] 100 0 (mkRat 3 20) =
      ([['a', 'b', 'c']], [⟨0, 3, 3⟩]) := by
  have h := splitByTokensElastic_single_chunk charTok ['a', 'b', 'c'] 100 (mkRat 3 20)
    (by decide) (by decide) (by decide) ?_
  · simpa using h
  · rw [show charTok.count ['a', 'b', 'c'] = 3 from rfl, Rat.mkRat_eq_div]
    norm_num

/-- Counterexample for C8: a 10-token document with target 100, overlap
20 and tolerance 0.15 satisfies `10 < 100*(1-0.15) = 85` yet produces
10 chunks, not one — the overlap pulls the cursor back before the end
of the text and the loop re-emits trailing chunks. -/
theorem splitByTokensElastic_single_chunk_counterexample :
    (splitByTokensElastic charTok (List.replicate 10 'a') 100 20 (mkRat 3 20)).1.length = 10 ∧
    charTok.count (List.replicate 10 'a') = 10 ∧
    ((10 : ℚ) < 100 * (1 - mkRat 3 20)) := by
  refine ⟨by rfl, by rfl, ?_⟩
  rw [Rat.mkRat_eq_div]
  norm_num
